import Mathlib

/-!
Verification of the COBS/ISI index core: a shallow embedding of
  * the async direct-I/O query backend (`isi::query::compact_index::aio`),
  * the document list (`cobs::DocumentList`, `cobs::DocumentEntry`),
  * the multi-level Bloom-filter build (`genome::msbf`),
together with theorems settling the specified properties.
-/

namespace Cobs

/-! ### Async direct-I/O backend (src/isi/query/compact_index/aio.cpp)

The header data the backend reads at open time: the device page size
`page_size` (`m_header.page_size()`), the per-sub-index signature sizes
(`m_header.parameters()[i].signature_size`) and the stream position right
after the header (`m_smd.curr_pos`). -/

structure AioHeader where
  page_size : ℕ
  signature_sizes : List ℕ
  header_end : ℕ
deriving DecidableEq, Repr

/-- `m_header.parameters()[i].signature_size` (out-of-range reads return 1,
never reached under the bounds used below). -/
def AioHeader.sigSize (h : AioHeader) (i : ℕ) : ℕ := h.signature_sizes.getD i 1

/-- The base-offset table computed by the `aio::aio` constructor:
`m_offsets[0] = m_smd.curr_pos`,
`m_offsets[i] = m_offsets[i-1] + page_size * signature_size[i-1]`. -/
def m_offsets (h : AioHeader) : ℕ → ℕ
  | 0 => h.header_end
  | i + 1 => m_offsets h i + h.page_size * h.sigSize i

/-- One kernel I/O control block as filled by `aio::read_from_disk`
(the fields it writes per request: destination buffer, file offset). -/
structure Iocb where
  aio_buf : ℕ
  aio_offset : ℕ
deriving DecidableEq, Repr

/-- The sequential order of the `(i, j)` iterations of the doubly nested
setup loop in `read_from_disk` (outer `i` over sub-indices, inner `j` over
hashes). -/
def setupLoopPairs (S R : ℕ) : List (ℕ × ℕ) :=
  (List.range S).flatMap (fun i => (List.range R).map (fun j => (i, j)))

/-- One iteration of the setup loop: with `S` sub-indices it stores, into
slot `i` of the control-block array, the destination
`rows + (i + j*S) * page_size` and the file offset
`m_offsets[i] + (hashes[j] % signature_size[i]) * page_size`.
The slot written is `m_iocbs[i]`, exactly as in the source. -/
def setupWrite (h : AioHeader) (hashes : List ℕ) (iocbs : ℕ → Option Iocb)
    (ij : ℕ × ℕ) : ℕ → Option Iocb :=
  fun idx =>
    if idx = ij.1 then
      some { aio_buf := (ij.1 + ij.2 * h.signature_sizes.length) * h.page_size,
             aio_offset := m_offsets h ij.1 +
               (hashes.getD ij.2 0 % h.sigSize ij.1) * h.page_size }
    else iocbs idx

/-- The control-block array after the whole setup loop of `read_from_disk`;
slots never written stay uninitialised (`none`). -/
def setupIocbs (h : AioHeader) (hashes : List ℕ) : ℕ → Option Iocb :=
  (setupLoopPairs h.signature_sizes.length hashes.length).foldl
    (setupWrite h hashes) (fun _ => none)

/-- The request list handed to `io_submit`: `num_requests = S * |hashes|`
pointers `m_iocbpp[0..num_requests)`, pointing at
`m_iocbs[0..num_requests)`. -/
def submittedIocbs (h : AioHeader) (hashes : List ℕ) : List (Option Iocb) :=
  (List.range (h.signature_sizes.length * hashes.length)).map (setupIocbs h hashes)

/-- The error paths of `read_from_disk` after the setup loop. -/
inductive AioError where
  | ioSubmitError
  | ioGetEventsError
deriving DecidableEq, Repr

/-- The submission/completion phase of `read_from_disk`:
`io_submit` returning `retSubmit ≠ num_requests` is fatal
(`exit_error_errno("io_submit error")`); then `io_getevents` returning
fewer than `num_requests` events is fatal; otherwise the probe completes. -/
def read_from_disk_io (num_requests retSubmit retGetevents : ℤ) :
    Except AioError Unit :=
  if retSubmit ≠ num_requests then .error .ioSubmitError
  else if retGetevents < num_requests then .error .ioGetEventsError
  else .ok ()

/-! ### Document list (src/cobs/document_list.hpp) -/

/-- `cobs::FileType`. -/
inductive FileType where
  | Any
  | Text
  | Cortex
  | KMerBuffer
  | Fasta
  | Fastq
deriving DecidableEq, Repr

/-- `cobs::DocumentEntry`: path, type, byte size, subdocument index. -/
structure DocumentEntry where
  path_ : String
  type_ : FileType
  size_ : ℕ
  subdoc_index_ : ℕ
deriving DecidableEq, Repr

/-- `DocumentEntry::operator<`: `return path_ < b.path_;`. -/
def DocumentEntry.lt (a b : DocumentEntry) : Bool :=
  decide (a.path_ < b.path_)

/-- What the directory scan sees of one regular file: its path, its
extension, its size, and — for FASTA container files — the number of
subdocuments (`FastaFile::num_documents()`) and their sizes
(`FastaFile::size(i)`). -/
structure FsFile where
  path : String
  extension : String
  size : ℕ
  fasta_num_documents : ℕ
  fasta_sizes : List ℕ
deriving DecidableEq, Repr

/-- `DocumentList::accept(path, filter)`. -/
def accept (f : FsFile) (flt : FileType) : Bool :=
  match flt with
  | .Any => f.extension = ".txt" || f.extension = ".ctx" ||
            f.extension = ".cobs_doc" || f.extension = ".fasta" ||
            f.extension = ".fastq"
  | .Text => f.extension = ".txt"
  | .Cortex => f.extension = ".ctx"
  | .KMerBuffer => f.extension = ".cobs_doc"
  | .Fasta => f.extension = ".fasta"
  | .Fastq => f.extension = ".fastq"

/-- `DocumentList::add(path)`: the entries appended to `list_` for one
file. There are branches for `.txt`, `.ctx`, `.cobs_doc` and `.fasta`
only; any other extension appends nothing. -/
def add (f : FsFile) : List DocumentEntry :=
  if f.extension = ".txt" then
    [{ path_ := f.path, type_ := .Text, size_ := f.size, subdoc_index_ := 0 }]
  else if f.extension = ".ctx" then
    [{ path_ := f.path, type_ := .Cortex, size_ := f.size, subdoc_index_ := 0 }]
  else if f.extension = ".cobs_doc" then
    [{ path_ := f.path, type_ := .KMerBuffer, size_ := f.size, subdoc_index_ := 0 }]
  else if f.extension = ".fasta" then
    (List.range f.fasta_num_documents).map (fun i =>
      { path_ := f.path, type_ := .Fasta, size_ := f.fasta_sizes.getD i 0,
        subdoc_index_ := i })
  else []

/-- The ordering `std::sort` establishes in both `DocumentList`
constructors with `DocumentEntry::operator<` (path only): consecutive
entries are in non-descending path order. -/
def doc_le (a b : DocumentEntry) : Bool :=
  decide (a.path_ ≤ b.path_)

/-- `DocumentList::DocumentList(list)`: copy the entry vector, then
`std::sort` it with `operator<`. -/
def DocumentList_of_list (l : List DocumentEntry) : List DocumentEntry :=
  l.mergeSort doc_le

/-- `DocumentList::DocumentList(dir, filter)`: scan the directory, keep
the accepted files, `add` each, then `std::sort` with `operator<`. -/
def DocumentList_of_dir (files : List FsFile) (flt : FileType) :
    List DocumentEntry :=
  ((files.filter (fun f => accept f flt)).flatMap add).mergeSort doc_le

instance : Inhabited DocumentEntry :=
  ⟨{ path_ := "", type_ := .Text, size_ := 0, subdoc_index_ := 0 }⟩

/-- Modelled from the spec: `cobs::base_name` (declared in
cobs/util/fs.hpp, not part of the sources) returns the base name used in
batch labels — the final path component stripped of its extension. -/
def base_name (p : String) : String :=
  ((p.splitOn "/").getLastD p).takeWhile (fun c => c != '.')

/-- The synthetic batch name `"[" + first_filename + "-" + last_filename + "]"`
built by `process_batches` from the basenames of a batch's first and last
entries. -/
def batchName (batch : List DocumentEntry) : String :=
  "[" ++ base_name ((batch.headD default).path_) ++ "-" ++
    base_name ((batch.getLastD default).path_) ++ "]"

/-- The loop of `DocumentList::process_batches`: entries are pushed onto
`batch`; when the batch reaches `batch_size` entries or the last entry has
been pushed, `func(batch, out_file)` fires and the batch is cleared.
The result collects the `(batch, out_file)` invocations in order. -/
def process_batches_go (batch_size : ℕ) (batch : List DocumentEntry) :
    List DocumentEntry → List (List DocumentEntry × String)
  | [] => []
  | e :: rest =>
    let batch' := batch ++ [e]
    if batch'.length = batch_size ∨ rest = [] then
      (batch', batchName batch') :: process_batches_go batch_size [] rest
    else
      process_batches_go batch_size batch' rest

/-- `DocumentList::process_batches(batch_size, func)`. -/
def process_batches (batch_size : ℕ) (l : List DocumentEntry) :
    List (List DocumentEntry × String) :=
  process_batches_go batch_size [] l

/-! ### Multi-level Bloom-filter build (genome::msbf)

`double` arithmetic of the source is modelled as exact real arithmetic. -/

/-- `genome::msbf::calc_bloom_filter_size_ratio(num_hashes, fpp)`:
`-num_hashes / log(1 - fpp^(1/num_hashes))`. -/
noncomputable def calc_bloom_filter_size_ratio (num_hashes fpp : ℝ) : ℝ :=
  -num_hashes / Real.log (1 - fpp ^ (1 / num_hashes))

/-- `genome::msbf::calc_bloom_filter_size(num_elements, num_hashes, fpp)`:
`ceil(num_elements * calc_bloom_filter_size_ratio(num_hashes, fpp))`. -/
noncomputable def calc_bloom_filter_size (num_elements : ℕ)
    (num_hashes fpp : ℝ) : ℤ :=
  ⌈(num_elements : ℝ) * calc_bloom_filter_size_ratio num_hashes fpp⌉

/-- The signature size `create_bloom_filters_from_samples` chooses for one
group directory: the maximum sample file size in the group (starting from
`max_file_size = 0`), divided by 8, fed to `calc_bloom_filter_size`. -/
noncomputable def group_bloom_filter_size (group_file_sizes : List ℕ)
    (num_hashes fpp : ℝ) : ℤ :=
  calc_bloom_filter_size ((group_file_sizes.foldr max 0) / 8) num_hashes fpp

/-- Modelled from the spec: `genome::bloom_filter::combine_bloom_filters`
(the per-directory worker called from the `genome::msbf` wrapper, not part
of the sources) merges each run of `batch_size` consecutive level-`L`
blocks into one level-`(L+1)` block; `n` blocks therefore become
`ceil(n / batch_size)` blocks. -/
def combine_level (batch_size n : ℕ) : ℕ :=
  (n + batch_size - 1) / batch_size

/-- The `while(!combine_bloom_filters(...))` loop of
`create_msbf_from_samples`, on the block count: each iteration combines
one level; the loop exits when a single block remains (`all_combined`).
`fuel` bounds the number of iterations; `none` means the fuel ran out
before the loop exited. -/
def msbf_merge_loop (batch_size : ℕ) : ℕ → ℕ → Option ℕ
  | 0, _ => none
  | fuel + 1, n =>
    let n' := combine_level batch_size n
    if n' ≤ 1 then some n'
    else msbf_merge_loop batch_size fuel n'

/-! ### Theorems -/

/-- C3: for every compact index opened by the async-direct backend, the base
offsets of consecutive sub-indices computed by the `aio` constructor satisfy
`base_{s+1} − base_s = m_s × P`; and, given that the header ends on a page
boundary (the on-disk layout pads the header with zeros to the next `P`
boundary), every base offset is a multiple of the page size `P`. -/
theorem aio_offsets_consecutive_and_aligned (h : AioHeader)
    (halign : h.header_end % h.page_size = 0) :
    (∀ s, m_offsets h (s + 1) - m_offsets h s = h.sigSize s * h.page_size) ∧
    (∀ s, m_offsets h s % h.page_size = 0) := by
  refine ⟨fun s => ?_, fun s => ?_⟩
  · show m_offsets h s + h.page_size * h.sigSize s - m_offsets h s = _
    rw [Nat.add_sub_cancel_left, Nat.mul_comm]
  · induction s with
    | zero => exact halign
    | succ n ih =>
      show (m_offsets h n + h.page_size * h.sigSize n) % h.page_size = 0
      rw [Nat.add_mul_mod_self_left]
      exact ih

/-- Witness for C3: a header with page size 4096, signature sizes `[2, 4]` and
header end 8192. -/
theorem aio_offsets_consecutive_and_aligned_witness :
    (8192 % 4096 = 0 : Prop) ∧
    ((∀ s, m_offsets ⟨4096, [2, 4], 8192⟩ (s + 1) - m_offsets ⟨4096, [2, 4], 8192⟩ s
        = AioHeader.sigSize ⟨4096, [2, 4], 8192⟩ s * 4096) ∧
     (∀ s, m_offsets ⟨4096, [2, 4], 8192⟩ s % 4096 = 0)) :=
  ⟨by decide, aio_offsets_consecutive_and_aligned ⟨4096, [2, 4], 8192⟩ (by decide)⟩

/-- C1 is violated by the code: with one sub-index (`S = 1`, `m_0 = 2`,
`base_0 = 4096`, `P = 4096`) and two hashes `[0, 1]`, the setup loop writes
both requests into the single control block `m_iocbs[0]` (the source indexes
the array with `i`, not `i + j*S`), so the submitted batch holds only the last
hash's request — destination `4096`, offset `8192` — followed by an
uninitialised block; no submitted request reads the page of hash `0`
(offset `4096`) into its region (destination `0`), as the claim requires. -/
theorem aio_read_setup_drops_requests :
    submittedIocbs { page_size := 4096, signature_sizes := [2], header_end := 4096 } [0, 1]
      = [some { aio_buf := 4096, aio_offset := 8192 }, none] ∧
    some { aio_buf := 0, aio_offset := 4096 } ∉
      submittedIocbs { page_size := 4096, signature_sizes := [2], header_end := 4096 } [0, 1] := by
  decide

/-- C2 as stated is false: when `io_submit` accepts fewer requests than were
batched (here 1 of 2), `read_from_disk` does not fall back to synchronous
reads and continue — it fails with a fatal `io_submit` error. -/
theorem aio_partial_submit_no_fallback :
    read_from_disk_io 2 1 2 = .error .ioSubmitError := rfl

/-- C2 amended: exhaustion of the I/O submission capacity is fatal — whenever
`io_submit` accepts a number of requests different from the batch size, the
probe terminates with an `io_submit` error; there is no synchronous-read
fallback. -/
theorem aio_partial_submit_errors (num_requests retSubmit retGetevents : ℤ)
    (hne : retSubmit ≠ num_requests) :
    read_from_disk_io num_requests retSubmit retGetevents = .error .ioSubmitError := by
  simp [read_from_disk_io, hne]

/-- Witness for the amended C2 at `num_requests = 2`, `retSubmit = 1`. -/
theorem aio_partial_submit_errors_witness :
    ((1 : ℤ) ≠ 2) ∧ read_from_disk_io 2 1 2 = .error .ioSubmitError :=
  ⟨by decide, aio_partial_submit_errors 2 1 2 (by decide)⟩

/-- C4 is violated: a regular `.fastq` file is accepted by the directory scan
under both the `Any` and the `Fastq` filter, yet `add` has no `.fastq` branch
and appends no entry for it — an accepted `.fastq` file contributes zero
`DocumentEntry`s, and a scan filtered to `Fastq` always yields an empty
list (here for a two-record fastq file of 100 bytes). -/
theorem fastq_accepted_but_dropped :
    accept ⟨"/d/x.fastq", ".fastq", 100, 2, [40, 60]⟩ .Any = true ∧
    accept ⟨"/d/x.fastq", ".fastq", 100, 2, [40, 60]⟩ .Fastq = true ∧
    add ⟨"/d/x.fastq", ".fastq", 100, 2, [40, 60]⟩ = [] ∧
    DocumentList_of_dir [⟨"/d/x.fastq", ".fastq", 100, 2, [40, 60]⟩] .Fastq = [] := by
  refine ⟨by decide, by decide, by decide, ?_⟩
  simp [DocumentList_of_dir, accept, add]

/-- C5 as stated is false: two entries with equal path `"a.txt"` and distinct
sub-document indices 0 and 1 are unequal, yet neither compares before the
other — `operator<` ignores the sub-index, so the entry with the smaller
sub-index does not order first. -/
theorem documententry_lt_ignores_subdoc :
    DocumentEntry.lt ⟨"a.txt", .Text, 1, 0⟩ ⟨"a.txt", .Text, 1, 1⟩ = false ∧
    DocumentEntry.lt ⟨"a.txt", .Text, 1, 1⟩ ⟨"a.txt", .Text, 1, 0⟩ = false ∧
    (⟨"a.txt", .Text, 1, 0⟩ : DocumentEntry) ≠ ⟨"a.txt", .Text, 1, 1⟩ :=
  ⟨decide_eq_false (lt_irrefl _), decide_eq_false (lt_irrefl _), by decide⟩

/-- C5 amended: `DocumentEntry::operator<` is a total order on paths alone,
ignoring the sub-document index: it holds iff the first path is
lexicographically smaller, and two entries compare equivalent (neither
before the other) iff their paths are equal. -/
theorem documententry_lt_path_only (a b : DocumentEntry) :
    (DocumentEntry.lt a b = true ↔ a.path_ < b.path_) ∧
    ((DocumentEntry.lt a b = false ∧ DocumentEntry.lt b a = false) ↔
      a.path_ = b.path_) := by
  refine ⟨by simp [DocumentEntry.lt], ?_⟩
  simp only [DocumentEntry.lt, decide_eq_false_iff_not]
  constructor
  · rintro ⟨h1, h2⟩
    exact le_antisymm (not_lt.mp h2) (not_lt.mp h1)
  · intro h
    rw [h]
    exact ⟨lt_irrefl _, lt_irrefl _⟩

/-- C10: immediately after either `DocumentList` constructor — from an
explicit entry vector or from a directory scan — the stored entry list is
sorted ascending by path, and is a permutation of the input entries
(respectively of the entries the scan appended). -/
theorem documentlist_ctors_sorted (l : List DocumentEntry)
    (files : List FsFile) (flt : FileType) :
    (DocumentList_of_list l).Pairwise (fun a b => a.path_ ≤ b.path_) ∧
    (DocumentList_of_list l).Perm l ∧
    (DocumentList_of_dir files flt).Pairwise (fun a b => a.path_ ≤ b.path_) ∧
    (DocumentList_of_dir files flt).Perm
      ((files.filter (fun f => accept f flt)).flatMap add) := by
  have htrans : ∀ a b c : DocumentEntry,
      doc_le a b = true → doc_le b c = true → doc_le a c = true := by
    intro a b c h1 h2
    simp only [doc_le, decide_eq_true_eq] at h1 h2 ⊢
    exact le_trans h1 h2
  have htotal : ∀ a b : DocumentEntry, (doc_le a b || doc_le b a) = true := by
    intro a b
    simp only [doc_le, Bool.or_eq_true, decide_eq_true_eq]
    exact le_total _ _
  have himp : ∀ {a b : DocumentEntry},
      doc_le a b = true → a.path_ ≤ b.path_ := by
    intro a b h
    simpa [doc_le] using h
  refine ⟨?_, List.mergeSort_perm l _, ?_, List.mergeSort_perm _ _⟩
  · exact (List.sorted_mergeSort htrans htotal l).imp himp
  · exact (List.sorted_mergeSort htrans htotal _).imp himp

/-- Concatenation invariant of the `process_batches` loop: as long as some
entries remain, the emitted batches flatten to the pending batch followed by
the remaining entries. -/
theorem process_batches_go_flatten (bs : ℕ) (l : List DocumentEntry) :
    ∀ batch, l ≠ [] →
      ((process_batches_go bs batch l).map Prod.fst).flatten = batch ++ l := by
  induction l with
  | nil => intro batch h; exact absurd rfl h
  | cons e rest ih =>
    intro batch _
    by_cases hr : rest = []
    · subst hr
      simp [process_batches_go]
    · by_cases hlen : (batch ++ [e]).length = bs
      · rw [process_batches_go, if_pos (Or.inl hlen)]
        simp [ih [] hr]
      · rw [process_batches_go, if_neg (not_or.mpr ⟨hlen, hr⟩)]
        rw [ih (batch ++ [e]) hr]
        simp

/-- Shape invariant of the `process_batches` loop: when the pending batch is
strictly below the batch size, every emitted batch is nonempty, has at most
`batch_size` entries, and carries the synthetic `[first-last]` name. -/
theorem process_batches_go_shape (bs : ℕ) (l : List DocumentEntry) :
    ∀ batch, batch.length < bs →
      ∀ p ∈ process_batches_go bs batch l,
        p.1 ≠ [] ∧ p.1.length ≤ bs ∧ p.2 = batchName p.1 := by
  induction l with
  | nil => intro batch _ p hp; simp [process_batches_go] at hp
  | cons e rest ih =>
    intro batch hblen p hp
    by_cases hcond : (batch ++ [e]).length = bs ∨ rest = []
    · rw [process_batches_go, if_pos hcond] at hp
      rcases List.mem_cons.mp hp with hp | hp
      · subst hp
        refine ⟨by simp, ?_, rfl⟩
        simp only [List.length_append, List.length_singleton]
        omega
      · have hbs : 0 < bs := by omega
        exact ih [] (by simpa using hbs) p hp
    · rw [process_batches_go, if_neg hcond] at hp
      push_neg at hcond
      refine ih (batch ++ [e]) ?_ p hp
      have : (batch ++ [e]).length = batch.length + 1 := by simp
      omega

/-- C6: for every document list and every `batch_size ≥ 1`,
`process_batches` invokes the functor on consecutive nonempty runs of at
most `batch_size` entries whose concatenation in invocation order is the
whole list (so a final short run is still processed), and each run is
passed the synthetic name `"[first_basename-last_basename]"` built from the
run's first and last entries. -/
theorem process_batches_partitions (batch_size : ℕ) (l : List DocumentEntry)
    (hbs : 1 ≤ batch_size) :
    ((process_batches batch_size l).map Prod.fst).flatten = l ∧
    ∀ p ∈ process_batches batch_size l,
      p.1 ≠ [] ∧ p.1.length ≤ batch_size ∧
      p.2 = "[" ++ base_name ((p.1.headD default).path_) ++ "-" ++
              base_name ((p.1.getLastD default).path_) ++ "]" := by
  constructor
  · by_cases hl : l = []
    · subst hl; rfl
    · exact process_batches_go_flatten batch_size l [] hl
  · intro p hp
    have h := process_batches_go_shape batch_size l [] (by simpa using hbs) p hp
    exact ⟨h.1, h.2.1, by rw [h.2.2]; rfl⟩

/-- Witness for C6: batch size 2 on a three-entry list. -/
theorem process_batches_partitions_witness :
    1 ≤ 2 ∧
    (((process_batches 2 [⟨"/r/a.txt", .Text, 3, 0⟩, ⟨"/r/b.txt", .Text, 4, 0⟩,
        ⟨"/r/c.txt", .Text, 5, 0⟩]).map Prod.fst).flatten
      = [⟨"/r/a.txt", .Text, 3, 0⟩, ⟨"/r/b.txt", .Text, 4, 0⟩,
         ⟨"/r/c.txt", .Text, 5, 0⟩] ∧
    ∀ p ∈ process_batches 2 [⟨"/r/a.txt", .Text, 3, 0⟩, ⟨"/r/b.txt", .Text, 4, 0⟩,
        ⟨"/r/c.txt", .Text, 5, 0⟩],
      p.1 ≠ [] ∧ p.1.length ≤ 2 ∧
      p.2 = "[" ++ base_name ((p.1.headD default).path_) ++ "-" ++
              base_name ((p.1.getLastD default).path_) ++ "]") :=
  ⟨by decide,
   process_batches_partitions 2 [⟨"/r/a.txt", .Text, 3, 0⟩, ⟨"/r/b.txt", .Text, 4, 0⟩,
     ⟨"/r/c.txt", .Text, 5, 0⟩] (by decide)⟩

/-- For at least one hash and a false-positive rate in (0,1) the sizing
ratio `-k / log(1 - p^(1/k))` is strictly positive (this is the fact the
source asserts with `assert(result > 0)`). -/
theorem bloom_size_ratio_pos (k p : ℝ) (hk : 1 ≤ k) (hp0 : 0 < p)
    (hp1 : p < 1) : 0 < calc_bloom_filter_size_ratio k p := by
  have hk0 : (0 : ℝ) < k := lt_of_lt_of_le one_pos hk
  have hinv : (0 : ℝ) < 1 / k := by positivity
  have hpow1 : p ^ (1 / k) < 1 := Real.rpow_lt_one (le_of_lt hp0) hp1 hinv
  have hpow0 : (0 : ℝ) < p ^ (1 / k) := Real.rpow_pos_of_pos hp0 _
  have hlog : Real.log (1 - p ^ (1 / k)) < 0 :=
    Real.log_neg (by linarith) (by linarith)
  rw [calc_bloom_filter_size_ratio, neg_div, neg_pos]
  exact div_neg_of_pos_of_neg hk0 hlog

/-- C7: for every element count `n ≥ 1`, hash count `k ≥ 1` and
false-positive rate `p ∈ (0,1)`, the computed Bloom filter size equals
`ceil(-n·k / log(1 − p^(1/k)))` and is strictly positive. -/
theorem calc_bloom_filter_size_formula (n : ℕ) (k p : ℝ) (hn : 1 ≤ n)
    (hk : 1 ≤ k) (hp0 : 0 < p) (hp1 : p < 1) :
    calc_bloom_filter_size n k p
      = ⌈-((n : ℝ) * k) / Real.log (1 - p ^ (1 / k))⌉ ∧
    0 < calc_bloom_filter_size n k p := by
  constructor
  · rw [calc_bloom_filter_size, calc_bloom_filter_size_ratio]
    congr 1
    ring
  · rw [calc_bloom_filter_size, Int.ceil_pos]
    have hn0 : (0 : ℝ) < n := by exact_mod_cast Nat.lt_of_lt_of_le Nat.zero_lt_one hn
    exact mul_pos hn0 (bloom_size_ratio_pos k p hk hp0 hp1)

/-- Witness for C7 at `n = 1`, `k = 1`, `p = 1/2`. -/
theorem calc_bloom_filter_size_formula_witness :
    (1 ≤ 1 ∧ (1 : ℝ) ≤ 1 ∧ (0 : ℝ) < 1 / 2 ∧ (1 / 2 : ℝ) < 1) ∧
    (calc_bloom_filter_size 1 1 (1 / 2)
      = ⌈-((1 : ℕ) * (1 : ℝ)) / Real.log (1 - (1 / 2 : ℝ) ^ (1 / (1 : ℝ)))⌉ ∧
     0 < calc_bloom_filter_size 1 1 (1 / 2)) :=
  ⟨⟨le_refl 1, le_refl 1, by norm_num, by norm_num⟩,
   calc_bloom_filter_size_formula 1 1 (1 / 2) (le_refl 1) (le_refl 1)
     (by norm_num) (by norm_num)⟩

/-- `calc_bloom_filter_size` is monotone in the element count. -/
theorem calc_bloom_filter_size_mono (n m : ℕ) (k p : ℝ) (hk : 1 ≤ k)
    (hp0 : 0 < p) (hp1 : p < 1) (hnm : n ≤ m) :
    calc_bloom_filter_size n k p ≤ calc_bloom_filter_size m k p := by
  apply Int.ceil_le_ceil
  exact mul_le_mul_of_nonneg_right (Nat.cast_le.mpr hnm)
    (le_of_lt (bloom_size_ratio_pos k p hk hp0 hp1))

/-- Every element of a list of sizes is bounded by the running maximum the
group loop computes (`max_file_size`, starting from 0). -/
theorem le_foldr_max (d : ℕ) (g : List ℕ) (hd : d ∈ g) :
    d ≤ g.foldr max 0 := by
  induction g with
  | nil => cases hd
  | cons x xs ih =>
    rcases List.mem_cons.mp hd with rfl | h
    · exact le_max_left _ _
    · exact le_trans (ih h) (le_max_right _ _)

/-- On a nonempty list the running maximum is attained by some element: the
group's `max_file_size` is the size of its largest document. -/
theorem foldr_max_mem (g : List ℕ) (hg : g ≠ []) : g.foldr max 0 ∈ g := by
  induction g with
  | nil => exact absurd rfl hg
  | cons x xs ih =>
    by_cases hxs : xs = []
    · subst hxs
      simp
    · rcases max_choice x (xs.foldr max 0) with h | h
      · simp [h]
      · simp [h, ih hxs]

/-- C8: the group's common signature size is the requirement computed from
the group's largest document (the maximum file size, which is attained in a
nonempty group), so the requirement of every document in the group is at
most the group's shared size. -/
theorem group_filter_size_from_largest (g : List ℕ) (d : ℕ) (k p : ℝ)
    (hd : d ∈ g) (hk : 1 ≤ k) (hp0 : 0 < p) (hp1 : p < 1) :
    group_bloom_filter_size g k p
      = calc_bloom_filter_size ((g.foldr max 0) / 8) k p ∧
    g.foldr max 0 ∈ g ∧
    calc_bloom_filter_size (d / 8) k p ≤ group_bloom_filter_size g k p := by
  refine ⟨rfl, foldr_max_mem g (by rintro rfl; cases hd), ?_⟩
  exact calc_bloom_filter_size_mono _ _ k p hk hp0 hp1
    (Nat.div_le_div_right (le_foldr_max d g hd))

/-- Witness for C8: group with document sizes `[8, 24]`, member `8`,
`k = 1`, `p = 1/2`. -/
theorem group_filter_size_from_largest_witness :
    (8 ∈ [8, 24] ∧ (1 : ℝ) ≤ 1 ∧ (0 : ℝ) < 1 / 2 ∧ (1 / 2 : ℝ) < 1) ∧
    (group_bloom_filter_size [8, 24] 1 (1 / 2)
      = calc_bloom_filter_size (([8, 24].foldr max 0) / 8) 1 (1 / 2) ∧
     [8, 24].foldr max 0 ∈ [8, 24] ∧
     calc_bloom_filter_size (8 / 8) 1 (1 / 2)
       ≤ group_bloom_filter_size [8, 24] 1 (1 / 2)) :=
  ⟨⟨by decide, le_refl 1, by norm_num, by norm_num⟩,
   group_filter_size_from_largest [8, 24] 8 1 (1 / 2) (by decide)
     (le_refl 1) (by norm_num) (by norm_num)⟩

/-- One merge level over at least two blocks strictly reduces the block
count (batch size at least 2). -/
theorem combine_level_lt (B n : ℕ) (hB : 2 ≤ B) (hn : 2 ≤ n) :
    combine_level B n < n := by
  rw [combine_level, Nat.div_lt_iff_lt_mul (by omega)]
  have h2 : 2 * B ≤ n * B := Nat.mul_le_mul_right B hn
  have h3 : n * 2 ≤ n * B := Nat.mul_le_mul_left n hB
  omega

/-- One merge level over at least one block leaves at least one block. -/
theorem combine_level_ge_one (B n : ℕ) (hB : 1 ≤ B) (hn : 1 ≤ n) :
    1 ≤ combine_level B n := by
  rw [combine_level, Nat.le_div_iff_mul_le (by omega)]
  omega

/-- C9: for every batch size ≥ 2 and every positive number of blocks, the
`while(!combine_bloom_filters(...))` loop of `create_msbf_from_samples`
terminates: some finite fuel makes the loop exit with a single block
remaining, and each level strictly reduces the block count while more than
one block remains. -/
theorem msbf_merge_loop_terminates (B n : ℕ) (hB : 2 ≤ B) (hn : 1 ≤ n) :
    (∃ fuel, msbf_merge_loop B fuel n = some 1) ∧
    (∀ m, 2 ≤ m → combine_level B m < m) := by
  refine ⟨?_, fun m hm => combine_level_lt B m hB hm⟩
  induction n using Nat.strong_induction_on with
  | _ n ih =>
    by_cases h1 : combine_level B n ≤ 1
    · refine ⟨1, ?_⟩
      have heq : combine_level B n = 1 :=
        le_antisymm h1 (combine_level_ge_one B n (by omega) hn)
      simp [msbf_merge_loop, h1, heq]
    · have hn2 : 2 ≤ n := by
        by_contra hcon
        have : n = 1 := by omega
        subst this
        rw [combine_level, show 1 + B - 1 = B by omega,
          Nat.div_self (by omega : 0 < B)] at h1
        omega
      obtain ⟨fuel, hf⟩ := ih (combine_level B n)
        (combine_level_lt B n hB hn2)
        (combine_level_ge_one B n (by omega) hn)
      exact ⟨fuel + 1, by simp [msbf_merge_loop, h1, hf]⟩

/-- Witness for C9 at batch size 8 and 20 initial blocks. -/
theorem msbf_merge_loop_terminates_witness :
    (2 ≤ 8 ∧ 1 ≤ 20) ∧
    ((∃ fuel, msbf_merge_loop 8 fuel 20 = some 1) ∧
     (∀ m, 2 ≤ m → combine_level 8 m < m)) :=
  ⟨⟨by decide, by decide⟩, msbf_merge_loop_terminates 8 20 (by decide) (by decide)⟩

end Cobs
